import Mathlib

/-
  Verification development for `wsvreader.py` (ossobv/vcutil): a
  whitespace-separated-values reader.  The Python code is shallowly embedded:
  lines are `List Char`, the line source is a list of lines, the reader object
  is an explicit state record, and Python exceptions are modelled with
  `Except PyErr` / `Option` (where `none` stands for a raised
  `AssertionError`/`IndexError` inside `unquote`).

  The tokenizer of the source is the regex `\s([^"\s]*|"([^"]|"")*")\s`
  searched repeatedly with `pos = match.end() - 1`.  It is embedded below by
  `findMatch`/`tryToken`/`tryQuoted`/`cands`, which reproduce the regex
  engine's leftmost search, the ordered alternation (the bare-token branch is
  preferred), the greedy star with backtracking inside the quoted branch, and
  the single-whitespace sentinels on both sides of each match.
-/

deriving instance DecidableEq for Except

namespace Wsv

/-- Python's `\s` / `str.strip` whitespace class (ASCII part). -/
def isSpace (c : Char) : Bool :=
  c = ' ' || c = '\t' || c = '\n' || c = '\r' || c = '\x0b' || c = '\x0c'

/-- Python `str.strip()`: drop whitespace from both ends. -/
def strip (l : List Char) : List Char :=
  ((l.dropWhile isSpace).reverse.dropWhile isSpace).reverse

/-- Python `str.replace('""', '"')`: leftmost, non-overlapping. -/
def replaceDD : List Char → List Char
  | [] => []
  | '"' :: '"' :: t => '"' :: replaceDD t
  | c :: t => c :: replaceDD t

/-- `WsvReader.unquote`.  `none` models a raised exception: `column[0]` on an
empty string (`IndexError`) or the failed `assert column[-1] == '"'`. -/
def unquote (column : List Char) : Option (List Char) :=
  match column with
  | [] => none
  | c :: _ =>
    if c = '"' then
      if column.getLast? = some '"' then some (replaceDD ((column.drop 1).dropLast))
      else none
    else some column

/-- All ways the greedy star `([^"]|"")*` can consume a prefix of `s`, as
(consumed, remainder) pairs, in the regex engine's backtracking order:
at each step a single non-quote character is preferred, then a doubled
quote, and stopping is tried last. -/
def cands : List Char → List (List Char × List Char)
  | [] => [([], [])]
  | [c] =>
    if c = '"' then [([], [c])]
    else (cands []).map (fun p => (c :: p.1, p.2)) ++ [([], [c])]
  | c :: c' :: t' =>
    if c = '"' then
      if c' = '"' then (cands t').map (fun p => (c :: c' :: p.1, p.2)) ++ [([], c :: c' :: t')]
      else [([], c :: c' :: t')]
    else (cands (c' :: t')).map (fun p => (c :: p.1, p.2)) ++ [([], c :: c' :: t')]

/-- Close a quoted token: the first candidate of the star whose remainder is a
closing quote followed by whitespace wins.  Returns the full raw token
(including both quotes) and the remainder starting at the trailing
whitespace character. -/
def quotedEnd : List (List Char × List Char) → Option (List Char × List Char)
  | [] => none
  | (_, []) :: rest => quotedEnd rest
  | (_, [_]) :: rest => quotedEnd rest
  | (inner, c :: c' :: u') :: rest =>
    if c = '"' ∧ isSpace c' then some ('"' :: (inner ++ ['"']), c' :: u')
    else quotedEnd rest

/-- A character a bare (unquoted) token may contain: `[^"\s]`. -/
def bareChar (c : Char) : Bool := !isSpace c && !(c = '"')

/-- The quoted alternative `"([^"]|"")*"` followed by `\s`, at the position
right after the leading whitespace sentinel. -/
def tryQuoted (t : List Char) : Option (List Char × List Char) :=
  match t with
  | c :: t' => if c = '"' then quotedEnd (cands t') else none
  | [] => none

/-- Case split of `tryToken` on the part of `t` that follows the maximal bare
run: the bare branch `[^"\s]*` is greedy; with backtracking it succeeds
exactly when the maximal bare run is followed by whitespace (the token may
be empty).  Otherwise the quoted branch is tried. -/
def tryTokenAux (t : List Char) : List Char → Option (List Char × List Char)
  | c :: u => if isSpace c then some (t.takeWhile bareChar, c :: u) else tryQuoted t
  | [] => tryQuoted t

/-- Try to match `([^"\s]*|"([^"]|"")*")\s` at the position right after a
whitespace character. -/
def tryToken (t : List Char) : Option (List Char × List Char) :=
  tryTokenAux t (t.dropWhile bareChar)

/-- `re.search` of the whole pattern: scan left to right for a whitespace
character at which `tryToken` succeeds.  The returned remainder starts at
the trailing whitespace character (`pos = match.end() - 1`). -/
def findMatch : List Char → Option (List Char × List Char)
  | [] => none
  | c :: t =>
    if isSpace c then
      match tryToken t with
      | some p => some p
      | none => findMatch t
    else findMatch t

/-- The `while True` search loop of `split_line`.  The fuel only bounds the
number of loop iterations; each iteration consumes at least one character,
so any fuel above the length of the padded line is never exhausted
(`split_line_isSome` below proves the chosen fuel suffices for every line).
`none` models a raised exception inside `unquote` (or exhausted fuel,
which is proved unreachable). -/
def splitLoop : Nat → List Char → Option (List (List Char))
  | 0, _ => none
  | f + 1, s =>
    match findMatch s with
    | none => some []
    | some (tok, rest) =>
      if tok = [] then splitLoop f rest
      else
        match unquote tok with
        | none => none
        | some v =>
          match splitLoop f rest with
          | none => none
          | some vs => some (v :: vs)

/-- `WsvReader.split_line`: pad the line with one sentinel space on each side,
then repeatedly search for fields. -/
def split_line (l : List Char) : Option (List (List Char)) :=
  splitLoop (l.length + 3) (' ' :: (l ++ [' ']))

/-- Decimal representation of a natural number (the `%d` of `'extra%d' % i`).
The fuel is only a structural-recursion device: `n / 10 < n` for `n ≥ 10`,
so `n + 1` iterations always suffice. -/
def natReprFuel : Nat → Nat → List Char
  | 0, _ => []
  | f + 1, n =>
    if n < 10 then [Nat.digitChar n]
    else natReprFuel f (n / 10) ++ [Nat.digitChar (n % 10)]

/-- Decimal representation of `n`. -/
def natRepr (n : Nat) : List Char := natReprFuel (n + 1) n

/-- The synthetic column name `'extra%d' % i`. -/
def extraName (i : Nat) : List Char := "extra".data ++ natRepr i

/-- The header-extension loop of `WsvReader.__next__`:
`while len(columns) > len(self.columnnames): ...`.  The fuel only bounds the
number of loop iterations; `extendCols` supplies a fuel proved sufficient
(each iteration either appends a column, at most `numToks` times, or skips
an `extraName i` already present, which `extendFuel_eq_spec` below bounds). -/
def extendFuel : Nat → Nat → List (List Char) → Nat → List (List Char)
  | 0, _, cols, _ => cols
  | f + 1, numToks, cols, i =>
    if numToks > cols.length then
      if extraName i ∈ cols then extendFuel f numToks cols (i + 1)
      else extendFuel f numToks (cols ++ [extraName i]) (i + 1)
    else cols

/-- The header-extension loop, starting from `i = 0` as in the source. -/
def extendCols (numToks : Nat) (cols : List (List Char)) : List (List Char) :=
  extendFuel (2 * numToks + cols.length + 1) numToks cols 0

/-- Smallest `i ≥ start` with `extraName i ∉ cols`, searching at most `f`
steps. -/
def leastFreshFuel : Nat → List (List Char) → Nat → Nat
  | 0, _, i => i
  | f + 1, cols, i => if extraName i ∈ cols then leastFreshFuel f cols (i + 1) else i

/-- Modelled from the spec: "the smallest non-negative integer not already
used"; by the pigeonhole principle a fresh index exists among
`0, ..., cols.length`, so the fuel `cols.length + 1` suffices. -/
def leastFresh (cols : List (List Char)) : Nat := leastFreshFuel (cols.length + 1) cols 0

/-- Modelled from the spec (§4.4): "for every token position beyond the current
Column Name List length, append a synthetic column name of the form `extra` +
smallest non-negative integer not already used ... independently for each new
column needed".  Used as the specification side of the refinement claim about
the header-extension loop. -/
def specExtend (numToks : Nat) (cols : List (List Char)) : List (List Char) :=
  if _h : numToks > cols.length then
    specExtend numToks (cols ++ [extraName (leastFresh cols)])
  else cols
termination_by numToks - cols.length
decreasing_by simp only [List.length_append, List.length_cons, List.length_nil]; omega

/-- Numeric value of a decimal digit character (proof device for the
injectivity of `natRepr`). -/
def digitVal (c : Char) : Nat := c.toNat - '0'.toNat

/-- Evaluate a decimal digit string (proof device, left inverse of
`natRepr`). -/
def evalD (l : List Char) : Nat := l.foldl (fun a c => 10 * a + digitVal c) 0

/-- A line source: the lines of the underlying file, plus whether the file
supports `seek(0)` (a non-seekable file raises `IOError` on `seek`). -/
structure Source where
  lines : List (List Char)
  seekable : Bool
  deriving DecidableEq

/-- The `WsvReader` state: the file, the not-yet-consumed part of the current
line iterator, the `need_seek` flag and the current `columnnames`. -/
structure Reader where
  file : Source
  rest : List (List Char)
  needSeek : Bool
  columnnames : List (List Char)
  deriving DecidableEq

/-- The Python exceptions the reader can raise. -/
inductive PyErr where
  | valueError
  | ioError
  | assertionError
  | stopIteration
  deriving DecidableEq

/-- A record: `dict(zip(columnnames, columns))`, as an association list in
zip order (the column names are pairwise distinct in every reachable state,
so this is faithful to the Python `dict`). -/
abbrev Rec := List (List Char × List Char)

/-- `WsvReader(file)`: fresh reader over a source. -/
def mkReader (src : Source) : Reader := ⟨src, src.lines, false, []⟩

/-- `WsvReader.get_line`: skip blank lines and comments; return the next
significant line, stripped, together with the rest of the iterator.
`none` models the raised `StopIteration`. -/
def getLine : List (List Char) → Option (List Char × List (List Char))
  | [] => none
  | l :: t =>
    if (strip l).isEmpty then getLine t
    else if (strip l).head? = some '#' then getLine t
    else some (strip l, t)

/-- A line that `get_line` would return rather than skip: non-blank after
stripping and not starting with `#`. -/
def significant (l : List Char) : Bool :=
  !(strip l).isEmpty && ((strip l).head? != some '#')

/-- Second half of `read_header`: given the tokenization of the header line
(`none` models an exception escaping `split_line`), reject duplicate column
names (`len(columnnames) != len(set(columnnames))`, where `set` collapses
duplicates, so its size is `toks.dedup.length`). -/
def read_headerTok (r : Reader) (t : List (List Char)) :
    Option (List (List Char)) → Except PyErr Reader
  | none => .error .assertionError
  | some toks =>
    if toks.length ≠ toks.dedup.length then .error .valueError
    else .ok { r with rest := t, columnnames := toks }

/-- First half of `read_header`: given the result of `get_line` (`none` models
the raised `StopIteration`), tokenize the header line. -/
def read_headerLine (r : Reader) :
    Option (List Char × List (List Char)) → Except PyErr Reader
  | none => .error .stopIteration
  | some (l, t) => read_headerTok r t (split_line l)

/-- `WsvReader.read_header`: read and tokenize the header line, reject
duplicate column names. -/
def read_header (r : Reader) : Except PyErr Reader :=
  read_headerLine r (getLine r.rest)

/-- `WsvReader.__iter__`: on re-iteration seek to the start (an `IOError` if
the source is not seekable); the very first iteration does not seek.  Then
read the header. -/
def iterStart (r : Reader) : Except PyErr Reader :=
  if r.needSeek then
    if r.file.seekable then read_header { r with rest := r.file.lines }
    else .error .ioError
  else read_header { r with needSeek := true }

/-- Second half of `__next__`: given the tokenization of the data line
(`none` models an exception escaping `split_line`), extend the column names
as needed and return `dict(zip(columnnames, columns))`. -/
def nextRecordTok (r : Reader) (t : List (List Char)) :
    Option (List (List Char)) → Except PyErr (Option (Rec × Reader))
  | none => .error .assertionError
  | some toks =>
    .ok (some ((extendCols toks.length r.columnnames).zip toks,
      { r with rest := t, columnnames := extendCols toks.length r.columnnames }))

/-- First half of `__next__`: given the result of `get_line` (`none` models
the raised `StopIteration`, which ends the `for` loop), tokenize the line. -/
def nextRecordLine (r : Reader) :
    Option (List Char × List (List Char)) → Except PyErr (Option (Rec × Reader))
  | none => .ok none
  | some (l, t) => nextRecordTok r t (split_line l)

/-- `WsvReader.__next__`: fetch the next significant line, tokenize it, extend
the column names as needed, and return `dict(zip(columnnames, columns))`. -/
def nextRecord (r : Reader) : Except PyErr (Option (Rec × Reader)) :=
  nextRecordLine r (getLine r.rest)

/-- Prepend the record just produced to the rest of the pass (or propagate the
exception that aborted the pass). -/
def runRecordsCont (rec : Rec) : Except PyErr (List Rec × Reader) → Except PyErr (List Rec × Reader)
  | .error e => .error e
  | .ok (recs, r'') => .ok (rec :: recs, r'')

/-- Collect all records of the active pass (`[row for row in reader]` after
`__iter__`).  The fuel only bounds the number of `__next__` calls; each call
consumes at least one source line, so `r.rest.length + 1` always suffices
(`runRecordsF_congr` below). -/
def runRecordsF : Nat → Reader → Except PyErr (List Rec × Reader)
  | 0, r => .ok ([], r)
  | f + 1, r =>
    match nextRecord r with
    | .error e => .error e
    | .ok none => .ok ([], r)
    | .ok (some (rec, r')) => runRecordsCont rec (runRecordsF f r')

/-- Collect all records of the active pass. -/
def runRecords (r : Reader) : Except PyErr (List Rec × Reader) :=
  runRecordsF (r.rest.length + 1) r

/-- One complete pass: `__iter__` followed by draining `__next__`
(`[row for row in reader]`). -/
def fullPass (r : Reader) : Except PyErr (List Rec × Reader) :=
  match iterStart r with
  | .error e => .error e
  | .ok r' => runRecords r'

/-! ### Tokenizer lemmas -/

theorem cands_append : ∀ (s : List Char) (p : List Char × List Char),
    p ∈ cands s → p.1 ++ p.2 = s
  | [], p, hp => by
    simp only [cands, List.mem_singleton] at hp
    subst hp; rfl
  | [c], p, hp => by
    rw [cands] at hp
    by_cases hc : c = '"'
    · rw [if_pos hc] at hp
      simp only [List.mem_singleton] at hp; subst hp; rfl
    · rw [if_neg hc] at hp
      rcases List.mem_append.mp hp with h | h
      · rcases List.mem_map.mp h with ⟨q, hq, rfl⟩
        have hqe := cands_append [] q hq
        simpa using hqe
      · simp only [List.mem_singleton] at h; subst h; rfl
  | c :: c' :: t', p, hp => by
    rw [cands] at hp
    by_cases hc : c = '"'
    · rw [if_pos hc] at hp
      by_cases hc' : c' = '"'
      · rw [if_pos hc'] at hp
        rcases List.mem_append.mp hp with h | h
        · rcases List.mem_map.mp h with ⟨q, hq, rfl⟩
          have hqe := cands_append t' q hq
          simpa using hqe
        · simp only [List.mem_singleton] at h; subst h; rfl
      · rw [if_neg hc'] at hp
        simp only [List.mem_singleton] at hp; subst hp; rfl
    · rw [if_neg hc] at hp
      rcases List.mem_append.mp hp with h | h
      · rcases List.mem_map.mp h with ⟨q, hq, rfl⟩
        have hqe := cands_append (c' :: t') q hq
        simpa using hqe
      · simp only [List.mem_singleton] at h; subst h; rfl

theorem quotedEnd_shape : ∀ (l : List (List Char × List Char)) (tok u : List Char),
    quotedEnd l = some (tok, u) →
    ∃ inner, (inner, '"' :: u) ∈ l ∧ tok = '"' :: (inner ++ ['"'])
  | [], tok, u, h => by simp [quotedEnd] at h
  | (i0, []) :: rest, tok, u, h => by
    rw [quotedEnd] at h
    rcases quotedEnd_shape rest tok u h with ⟨i, hi, ht⟩
    exact ⟨i, List.mem_cons_of_mem _ hi, ht⟩
  | (i0, [c]) :: rest, tok, u, h => by
    rw [quotedEnd] at h
    rcases quotedEnd_shape rest tok u h with ⟨i, hi, ht⟩
    exact ⟨i, List.mem_cons_of_mem _ hi, ht⟩
  | (inner, c :: c' :: u') :: rest, tok, u, h => by
    rw [quotedEnd] at h
    by_cases hcc : c = '"' ∧ isSpace c' = true
    · rw [if_pos hcc] at h
      have h2 := Option.some.inj h
      have h1 : ('"' :: (inner ++ ['"']) : List Char) = tok := congrArg Prod.fst h2
      have h3 : (c' :: u' : List Char) = u := congrArg Prod.snd h2
      refine ⟨inner, ?_, h1.symm⟩
      rw [← h3, ← hcc.1]
      exact List.mem_cons_self _ _
    · rw [if_neg hcc] at h
      rcases quotedEnd_shape rest tok u h with ⟨i, hi, ht⟩
      exact ⟨i, List.mem_cons_of_mem _ hi, ht⟩

theorem tryQuoted_some (t tok u : List Char) (h : tryQuoted t = some (tok, u)) :
    (∃ inner, tok = '"' :: (inner ++ ['"'])) ∧ u.length + 2 ≤ t.length := by
  cases t with
  | nil => simp [tryQuoted] at h
  | cons c t' =>
    rw [tryQuoted] at h
    by_cases hc : c = '"'
    · rw [if_pos hc] at h
      rcases quotedEnd_shape _ _ _ h with ⟨inner, hmem, htok⟩
      have happ := cands_append t' _ hmem
      refine ⟨⟨inner, htok⟩, ?_⟩
      have hlen := congrArg List.length happ
      simp only [List.length_append, List.length_cons] at hlen ⊢
      omega
    · rw [if_neg hc] at h
      simp at h

theorem tryToken_some (t tok u : List Char) (h : tryToken t = some (tok, u)) :
    ((∀ c ∈ tok, bareChar c = true) ∨ ∃ inner, tok = '"' :: (inner ++ ['"'])) ∧
      u.length ≤ t.length := by
  rw [tryToken] at h
  cases hdw : t.dropWhile bareChar with
  | nil =>
    rw [hdw, tryTokenAux] at h
    rcases tryQuoted_some t tok u h with ⟨hsh, hle⟩
    exact ⟨Or.inr hsh, by omega⟩
  | cons c u' =>
    rw [hdw, tryTokenAux] at h
    by_cases hsp : isSpace c = true
    · rw [if_pos hsp] at h
      have h2 := Option.some.inj h
      have h1 : t.takeWhile bareChar = tok := congrArg Prod.fst h2
      have h3 : (c :: u' : List Char) = u := congrArg Prod.snd h2
      constructor
      · refine Or.inl ?_
        intro x hx
        rw [← h1] at hx
        exact List.mem_takeWhile_imp hx
      · rw [← h3, ← hdw]
        exact (List.dropWhile_sublist bareChar).length_le
    · rw [if_neg hsp] at h
      rcases tryQuoted_some t tok u h with ⟨hsh, hle⟩
      exact ⟨Or.inr hsh, by omega⟩

theorem findMatch_some : ∀ (s tok u : List Char), findMatch s = some (tok, u) →
    ((∀ c ∈ tok, bareChar c = true) ∨ ∃ inner, tok = '"' :: (inner ++ ['"'])) ∧
      u.length < s.length
  | [], tok, u, h => by simp [findMatch] at h
  | c :: t, tok, u, h => by
    rw [findMatch] at h
    by_cases hsp : isSpace c = true
    · rw [if_pos hsp] at h
      cases htt : tryToken t with
      | some p =>
        rw [htt] at h
        have hp : p = (tok, u) := Option.some.inj h
        subst hp
        rcases tryToken_some t tok u htt with ⟨hsh, hle⟩
        exact ⟨hsh, by simp only [List.length_cons]; omega⟩
      | none =>
        rw [htt] at h
        rcases findMatch_some t tok u h with ⟨hsh, hlt⟩
        exact ⟨hsh, by simp only [List.length_cons]; omega⟩
    · rw [if_neg hsp] at h
      rcases findMatch_some t tok u h with ⟨hsh, hlt⟩
      exact ⟨hsh, by simp only [List.length_cons]; omega⟩

theorem unquote_quoted (inner : List Char) :
    unquote ('"' :: (inner ++ ['"'])) = some (replaceDD inner) := by
  have hg : ('"' :: (inner ++ ['"'])).getLast? = some '"' := by
    rw [show ('"' :: (inner ++ ['"']) : List Char) = ('"' :: inner) ++ ['"'] by simp]
    exact List.getLast?_concat _
  rw [unquote]
  rw [if_pos rfl, if_pos hg]
  simp [List.dropLast_concat]

theorem unquote_isSome_of_shape (tok : List Char) (hne : tok ≠ [])
    (hsh : (∀ c ∈ tok, bareChar c = true) ∨ ∃ inner, tok = '"' :: (inner ++ ['"'])) :
    (unquote tok).isSome := by
  rcases hsh with hbare | ⟨inner, rfl⟩
  · cases tok with
    | nil => exact absurd rfl hne
    | cons c t =>
      have hb := hbare c (List.mem_cons_self c t)
      have hc : ¬(c = '"') := by
        simp only [bareChar, Bool.and_eq_true, Bool.not_eq_true'] at hb
        simpa using hb.2
      rw [unquote, if_neg hc]
      rfl
  · rw [unquote_quoted]
    rfl

theorem splitLoop_succ_none (f : Nat) (s : List Char) (h : findMatch s = none) :
    splitLoop (f + 1) s = some [] := by
  rw [splitLoop, h]

theorem splitLoop_succ_some (f : Nat) (s tok rest : List Char)
    (h : findMatch s = some (tok, rest)) :
    splitLoop (f + 1) s =
      if tok = [] then splitLoop f rest
      else
        match unquote tok with
        | none => none
        | some v =>
          match splitLoop f rest with
          | none => none
          | some vs => some (v :: vs) := by
  rw [splitLoop, h]

theorem splitLoop_isSome : ∀ (f : Nat) (s : List Char), s.length < f →
    (splitLoop f s).isSome := by
  intro f
  induction f with
  | zero => intro s h; omega
  | succ f ih =>
    intro s hs
    cases hfm : findMatch s with
    | none => rw [splitLoop_succ_none f s hfm]; rfl
    | some p =>
      obtain ⟨tok, rest⟩ := p
      rw [splitLoop_succ_some f s tok rest hfm]
      rcases findMatch_some s tok rest hfm with ⟨hshape, hlt⟩
      by_cases hemp : tok = []
      · rw [if_pos hemp]
        exact ih rest (by omega)
      · rw [if_neg hemp]
        have hu := unquote_isSome_of_shape tok hemp hshape
        cases huq : unquote tok with
        | none => rw [huq] at hu; simp at hu
        | some v =>
          have hrest := ih rest (by omega)
          cases hrl : splitLoop f rest with
          | none => rw [hrl] at hrest; simp at hrest
          | some vs => rfl

theorem split_line_isSome (l : List Char) : (split_line l).isSome := by
  apply splitLoop_isSome
  simp only [List.length_cons, List.length_append, List.length_nil]
  omega

/-! ### Decimal representation and synthetic-name lemmas -/

theorem digitVal_digitChar (d : Nat) (hd : d < 10) : digitVal (Nat.digitChar d) = d := by
  interval_cases d <;> rfl

theorem evalD_concat (xs : List Char) (c : Char) :
    evalD (xs ++ [c]) = 10 * evalD xs + digitVal c := by
  simp [evalD, List.foldl_append]

theorem natReprFuel_eval : ∀ (f n : Nat), n < f → evalD (natReprFuel f n) = n := by
  intro f
  induction f with
  | zero => intro n h; omega
  | succ f ih =>
    intro n hn
    rw [natReprFuel]
    by_cases h10 : n < 10
    · rw [if_pos h10]
      have h1 : evalD [Nat.digitChar n] = digitVal (Nat.digitChar n) := by
        simp [evalD]
      rw [h1, digitVal_digitChar n h10]
    · rw [if_neg h10]
      rw [evalD_concat]
      have hdiv : n / 10 < f := by
        have hlt : n / 10 < n := Nat.div_lt_self (by omega) (by omega)
        omega
      rw [ih (n / 10) hdiv, digitVal_digitChar (n % 10) (Nat.mod_lt n (by omega))]
      omega

theorem natRepr_inj : Function.Injective natRepr := by
  intro a b h
  have h2 := congrArg evalD h
  rw [natRepr, natRepr, natReprFuel_eval (a + 1) a (by omega),
    natReprFuel_eval (b + 1) b (by omega)] at h2
  exact h2

theorem extraName_inj : Function.Injective extraName := by
  intro a b h
  exact natRepr_inj (List.append_cancel_left h)

/-! ### Filter counting lemmas -/

theorem filter_length_mono {α : Type} (p q : α → Bool)
    (himp : ∀ a, q a = true → p a = true) :
    ∀ l : List α, (l.filter q).length ≤ (l.filter p).length := by
  intro l
  induction l with
  | nil => simp
  | cons b l ih =>
    by_cases hq : q b = true
    · rw [List.filter_cons_of_pos hq, List.filter_cons_of_pos (himp b hq)]
      simpa using ih
    · rw [List.filter_cons_of_neg hq]
      by_cases hp : p b = true
      · rw [List.filter_cons_of_pos hp]
        simp only [List.length_cons]
        omega
      · rw [List.filter_cons_of_neg hp]
        exact ih

theorem filter_length_lt {α : Type} (p q : α → Bool)
    (himp : ∀ a, q a = true → p a = true) :
    ∀ l : List α, (∃ a ∈ l, p a = true ∧ q a = false) →
      (l.filter q).length < (l.filter p).length := by
  intro l
  induction l with
  | nil => rintro ⟨a, ha, _⟩; simp at ha
  | cons b l ih =>
    rintro ⟨a, ha, hpa, hqa⟩
    rcases List.mem_cons.mp ha with rfl | hmem
    · rw [List.filter_cons_of_pos hpa, List.filter_cons_of_neg (by simp [hqa])]
      have := filter_length_mono p q himp l
      simp only [List.length_cons]
      omega
    · have hlt := ih ⟨a, hmem, hpa, hqa⟩
      by_cases hq : q b = true
      · rw [List.filter_cons_of_pos hq, List.filter_cons_of_pos (himp b hq)]
        simp only [List.length_cons]
        omega
      · rw [List.filter_cons_of_neg hq]
        by_cases hp : p b = true
        · rw [List.filter_cons_of_pos hp]
          simp only [List.length_cons]
          omega
        · rw [List.filter_cons_of_neg hp]
          exact hlt

/-! ### The header-extension loop equals its specification -/

theorem exists_extraName_not_mem (cols : List (List Char)) :
    ∃ m, m ≤ cols.length ∧ extraName m ∉ cols := by
  by_contra hcon
  push_neg at hcon
  have hsub : ((List.range (cols.length + 1)).map extraName) ⊆ cols := by
    intro x hx
    rcases List.mem_map.mp hx with ⟨m, hm, rfl⟩
    exact hcon m (by rw [List.mem_range] at hm; omega)
  have hnd : ((List.range (cols.length + 1)).map extraName).Nodup :=
    (List.nodup_range _).map extraName_inj
  have hcard : ((List.range (cols.length + 1)).map extraName).toFinset.card =
      cols.length + 1 := by
    rw [List.toFinset_card_of_nodup hnd]
    simp
  have hle : ((List.range (cols.length + 1)).map extraName).toFinset.card ≤
      cols.toFinset.card := by
    apply Finset.card_le_card
    intro x hx
    rw [List.mem_toFinset] at hx ⊢
    exact hsub hx
  have hfin := List.toFinset_card_le cols
  omega

theorem leastFreshFuel_spec : ∀ (f : Nat) (cols : List (List Char)) (i : Nat),
    (∃ m, m < f ∧ extraName (i + m) ∉ cols) →
    extraName (leastFreshFuel f cols i) ∉ cols ∧
      i ≤ leastFreshFuel f cols i ∧
      ∀ k, i ≤ k → k < leastFreshFuel f cols i → extraName k ∈ cols := by
  intro f
  induction f with
  | zero => rintro cols i ⟨m, hm, _⟩; omega
  | succ f ih =>
    rintro cols i ⟨m, hm, hfresh⟩
    rw [leastFreshFuel]
    by_cases hmem : extraName i ∈ cols
    · rw [if_pos hmem]
      have hm0 : m ≠ 0 := by
        rintro rfl
        exact hfresh hmem
      have hnext : ∃ m', m' < f ∧ extraName (i + 1 + m') ∉ cols := by
        refine ⟨m - 1, by omega, ?_⟩
        have heq : i + 1 + (m - 1) = i + m := by omega
        rw [heq]
        exact hfresh
      rcases ih cols (i + 1) hnext with ⟨h1, h2, h3⟩
      refine ⟨h1, by omega, ?_⟩
      intro k hk1 hk2
      rcases Nat.eq_or_lt_of_le hk1 with rfl | hk
      · exact hmem
      · exact h3 k (by omega) hk2
    · rw [if_neg hmem]
      exact ⟨hmem, le_refl i, fun k hk1 hk2 => absurd hk1 (by omega)⟩

theorem leastFresh_spec (cols : List (List Char)) :
    extraName (leastFresh cols) ∉ cols ∧ ∀ k < leastFresh cols, extraName k ∈ cols := by
  rcases exists_extraName_not_mem cols with ⟨m, hm, hfresh⟩
  have h := leastFreshFuel_spec (cols.length + 1) cols 0
    ⟨m, by omega, by simpa using hfresh⟩
  exact ⟨h.1, fun k hk => h.2.2 k (Nat.zero_le k) hk⟩

theorem specExtend_of_le (n : Nat) (cols : List (List Char)) (h : ¬n > cols.length) :
    specExtend n cols = cols := by
  rw [specExtend, dif_neg h]

theorem specExtend_of_gt (n : Nat) (cols : List (List Char)) (h : n > cols.length) :
    specExtend n cols = specExtend n (cols ++ [extraName (leastFresh cols)]) := by
  rw [specExtend, dif_pos h]

theorem specExtend_length : ∀ (k n : Nat) (cols : List (List Char)),
    n - cols.length ≤ k → n ≤ (specExtend n cols).length := by
  intro k
  induction k with
  | zero =>
    intro n cols h
    rw [specExtend_of_le n cols (by omega)]
    omega
  | succ k ih =>
    intro n cols h
    by_cases hgt : n > cols.length
    · rw [specExtend_of_gt n cols hgt]
      apply ih
      simp only [List.length_append, List.length_cons, List.length_nil]
      omega
    · rw [specExtend_of_le n cols hgt]
      omega

theorem extendFuel_eq_spec : ∀ (f numToks : Nat) (cols : List (List Char)) (i : Nat),
    (∀ m < i, extraName m ∈ cols) →
    (numToks - cols.length) +
        (cols.filter (fun c => !decide (c ∈ (List.range i).map extraName))).length < f →
    extendFuel f numToks cols i = specExtend numToks cols := by
  intro f
  induction f with
  | zero => intro numToks cols i hinv hlt; omega
  | succ f ih =>
    intro numToks cols i hinv hlt
    rw [extendFuel]
    by_cases hgt : numToks > cols.length
    · rw [if_pos hgt]
      by_cases hmem : extraName i ∈ cols
      · rw [if_pos hmem]
        have hinv' : ∀ m < i + 1, extraName m ∈ cols := by
          intro m hm
          rcases Nat.lt_succ_iff_lt_or_eq.mp hm with h | rfl
          · exact hinv m h
          · exact hmem
        apply ih numToks cols (i + 1) hinv'
        have hdec :
            (cols.filter (fun c => !decide (c ∈ (List.range (i + 1)).map extraName))).length <
              (cols.filter (fun c => !decide (c ∈ (List.range i).map extraName))).length := by
          apply filter_length_lt
          · intro a ha
            simp only [Bool.not_eq_true', decide_eq_false_iff_not] at ha ⊢
            intro hmem'
            apply ha
            rcases List.mem_map.mp hmem' with ⟨m, hm, rfl⟩
            exact List.mem_map.mpr ⟨m, by rw [List.mem_range] at hm ⊢; omega, rfl⟩
          · refine ⟨extraName i, hmem, ?_, ?_⟩
            · simp only [Bool.not_eq_true', decide_eq_false_iff_not]
              intro hmem'
              rcases List.mem_map.mp hmem' with ⟨m, hm, heq⟩
              have := extraName_inj heq
              rw [List.mem_range] at hm
              omega
            · simp only [Bool.not_eq_false', decide_eq_true_iff]
              exact List.mem_map.mpr ⟨i, List.mem_range.mpr (by omega), rfl⟩
        omega
      · rw [if_neg hmem]
        have hileast : leastFresh cols = i := by
          rcases leastFresh_spec cols with ⟨hf, hmin⟩
          by_contra hne
          rcases Nat.lt_or_ge (leastFresh cols) i with h | h
          · exact hf (hinv _ h)
          · exact hmem (hmin i (by omega))
        have hinv' : ∀ m < i + 1, extraName m ∈ cols ++ [extraName i] := by
          intro m hm
          rcases Nat.lt_succ_iff_lt_or_eq.mp hm with h | rfl
          · exact List.mem_append_left _ (hinv m h)
          · exact List.mem_append_right _ (List.mem_singleton.mpr rfl)
        rw [specExtend_of_gt numToks cols hgt, hileast]
        apply ih numToks (cols ++ [extraName i]) (i + 1) hinv'
        have hfil :
            ((cols ++ [extraName i]).filter
                (fun c => !decide (c ∈ (List.range (i + 1)).map extraName))).length ≤
              (cols.filter (fun c => !decide (c ∈ (List.range i).map extraName))).length := by
          rw [List.filter_append]
          have hsing : ([extraName i].filter
              (fun c => !decide (c ∈ (List.range (i + 1)).map extraName))) = [] := by
            rw [List.filter_cons_of_neg]
            · rfl
            · simp only [Bool.not_eq_true', decide_eq_false_iff_not, Decidable.not_not]
              exact List.mem_map.mpr ⟨i, List.mem_range.mpr (by omega), rfl⟩
          rw [hsing, List.append_nil]
          apply filter_length_mono
          intro a ha
          simp only [Bool.not_eq_true', decide_eq_false_iff_not] at ha ⊢
          intro hmem'
          apply ha
          rcases List.mem_map.mp hmem' with ⟨m, hm, rfl⟩
          exact List.mem_map.mpr ⟨m, by rw [List.mem_range] at hm ⊢; omega, rfl⟩
        simp only [List.length_append, List.length_cons, List.length_nil]
        omega
    · rw [if_neg hgt]
      rw [specExtend_of_le numToks cols hgt]

theorem extendCols_eq_spec (numToks : Nat) (cols : List (List Char)) :
    extendCols numToks cols = specExtend numToks cols := by
  apply extendFuel_eq_spec _ _ _ 0 (by intro m hm; omega)
  have hle := List.length_filter_le
    (fun c => !decide (c ∈ (List.range 0).map extraName)) cols
  omega

theorem extendCols_length (numToks : Nat) (cols : List (List Char)) :
    numToks ≤ (extendCols numToks cols).length := by
  rw [extendCols_eq_spec]
  exact specExtend_length numToks numToks cols (by omega)

/-! ### Line supplier lemmas -/

theorem getLine_cons_skip (l : List Char) (t : List (List Char))
    (hs : significant l = false) : getLine (l :: t) = getLine t := by
  rw [getLine]
  simp only [significant, Bool.and_eq_false_iff, Bool.not_eq_false',
    bne_eq_false_iff_eq] at hs
  rcases hs with h | h
  · rw [if_pos h]
  · by_cases he : (strip l).isEmpty = true
    · rw [if_pos he]
    · rw [if_neg he, if_pos h]

theorem getLine_cons_sig (l : List Char) (t : List (List Char))
    (hs : significant l = true) : getLine (l :: t) = some (strip l, t) := by
  rw [getLine]
  simp only [significant, Bool.and_eq_true, Bool.not_eq_true', bne_iff_ne] at hs
  rw [if_neg (by simp [hs.1]), if_neg (by simpa using hs.2)]

theorem getLine_none_of_all (ls : List (List Char))
    (h : ∀ l ∈ ls, significant l = false) : getLine ls = none := by
  induction ls with
  | nil => rfl
  | cons l t ih =>
    rw [getLine_cons_skip l t (h l (List.mem_cons_self l t))]
    exact ih (fun x hx => h x (List.mem_cons_of_mem l hx))

theorem getLine_some_facts : ∀ (ls : List (List Char)) (l : List Char)
    (t : List (List Char)), getLine ls = some (l, t) →
    t.length < ls.length ∧
      (ls.filter significant).length = (t.filter significant).length + 1 := by
  intro ls
  induction ls with
  | nil => intro l t h; simp [getLine] at h
  | cons x xs ih =>
    intro l t h
    by_cases hs : significant x = true
    · rw [getLine_cons_sig x xs hs] at h
      have h2 := Option.some.inj h
      have ht : xs = t := congrArg Prod.snd h2
      subst ht
      constructor
      · simp only [List.length_cons]; omega
      · rw [List.filter_cons_of_pos hs]
        simp only [List.length_cons]
    · rw [getLine_cons_skip x xs (by simpa using hs)] at h
      rcases ih l t h with ⟨h1, h2⟩
      constructor
      · simp only [List.length_cons]; omega
      · rw [List.filter_cons_of_neg hs]
        exact h2

/-! ### Record assembler lemmas -/

theorem nextRecord_eq_of (r : Reader) (l : List Char) (t : List (List Char))
    (toks : List (List Char)) (hgl : getLine r.rest = some (l, t))
    (hsl : split_line l = some toks) :
    nextRecord r = .ok (some ((extendCols toks.length r.columnnames).zip toks,
      { r with rest := t, columnnames := extendCols toks.length r.columnnames })) := by
  rw [nextRecord, hgl, nextRecordLine, hsl, nextRecordTok]

theorem nextRecord_none_of (r : Reader) (hgl : getLine r.rest = none) :
    nextRecord r = .ok none := by
  rw [nextRecord, hgl, nextRecordLine]

theorem nextRecord_some_elim (r : Reader) (rec : Rec) (r' : Reader)
    (h : nextRecord r = .ok (some (rec, r'))) :
    ∃ l t toks, getLine r.rest = some (l, t) ∧ split_line l = some toks ∧
      rec = (extendCols toks.length r.columnnames).zip toks ∧
      r' = { r with rest := t, columnnames := extendCols toks.length r.columnnames } := by
  rw [nextRecord] at h
  cases hgl : getLine r.rest with
  | none => rw [hgl, nextRecordLine] at h; simp at h
  | some p =>
    obtain ⟨l, t⟩ := p
    rw [hgl, nextRecordLine] at h
    cases hsl : split_line l with
    | none => rw [hsl, nextRecordTok] at h; simp at h
    | some toks =>
      rw [hsl, nextRecordTok] at h
      have h2 : (some ((extendCols toks.length r.columnnames).zip toks,
          { r with rest := t, columnnames := extendCols toks.length r.columnnames }) :
            Option (Rec × Reader)) = some (rec, r') := Except.ok.inj h
      have h3 := Option.some.inj h2
      exact ⟨l, t, toks, rfl, hsl, (congrArg Prod.fst h3).symm, (congrArg Prod.snd h3).symm⟩

theorem nextRecord_ne_error (r : Reader) (e : PyErr) : nextRecord r ≠ .error e := by
  rw [nextRecord]
  cases hgl : getLine r.rest with
  | none => rw [nextRecordLine]; simp
  | some p =>
    obtain ⟨l, t⟩ := p
    rw [nextRecordLine]
    cases hsl : split_line l with
    | none =>
      have hs := split_line_isSome l
      rw [hsl] at hs
      simp at hs
    | some toks => rw [nextRecordTok]; simp

/-- Membership of a significant line makes `getLine` succeed. -/
theorem getLine_ne_none_of_sig : ∀ (ls : List (List Char)) (a : List Char),
    a ∈ ls → significant a = true → getLine ls ≠ none := by
  intro ls
  induction ls with
  | nil => intro a ha _; simp at ha
  | cons x xs ih =>
    intro a ha hsig
    rcases List.mem_cons.mp ha with rfl | hmem
    · rw [getLine_cons_sig a xs hsig]
      simp
    · by_cases hsx : significant x = true
      · rw [getLine_cons_sig x xs hsx]
        simp
      · rw [getLine_cons_skip x xs (by simpa using hsx)]
        exact ih a hmem hsig

theorem runRecordsF_succ (f : Nat) (r : Reader) :
    runRecordsF (f + 1) r =
      match nextRecord r with
      | .error e => .error e
      | .ok none => .ok ([], r)
      | .ok (some (rec, r')) => runRecordsCont rec (runRecordsF f r') := by
  rw [runRecordsF]

theorem runRecordsF_congr : ∀ (n : Nat) (r : Reader) (f g : Nat), r.rest.length ≤ n →
    r.rest.length < f → r.rest.length < g → runRecordsF f r = runRecordsF g r := by
  intro n
  induction n with
  | zero =>
    intro r f g hn hf hg
    obtain ⟨f', rfl⟩ : ∃ f', f = f' + 1 := ⟨f - 1, by omega⟩
    obtain ⟨g', rfl⟩ : ∃ g', g = g' + 1 := ⟨g - 1, by omega⟩
    rw [runRecordsF_succ, runRecordsF_succ]
    cases hnr : nextRecord r with
    | error e => rfl
    | ok o =>
      cases o with
      | none => rfl
      | some p =>
        obtain ⟨rec, r'⟩ := p
        rcases nextRecord_some_elim r rec r' hnr with ⟨l, t, toks, hgl, _, _, _⟩
        have hlt := (getLine_some_facts r.rest l t hgl).1
        omega
  | succ n ih =>
    intro r f g hn hf hg
    obtain ⟨f', rfl⟩ : ∃ f', f = f' + 1 := ⟨f - 1, by omega⟩
    obtain ⟨g', rfl⟩ : ∃ g', g = g' + 1 := ⟨g - 1, by omega⟩
    rw [runRecordsF_succ, runRecordsF_succ]
    cases hnr : nextRecord r with
    | error e => rfl
    | ok o =>
      cases o with
      | none => rfl
      | some p =>
        obtain ⟨rec, r'⟩ := p
        rcases nextRecord_some_elim r rec r' hnr with ⟨l, t, toks, hgl, _, _, hr'⟩
        have hlt : r'.rest.length < r.rest.length := by
          have hlt2 := (getLine_some_facts r.rest l t hgl).1
          rw [hr']
          exact hlt2
        have heq : runRecordsF f' r' = runRecordsF g' r' :=
          ih r' f' g' (by omega) (by omega) (by omega)
        exact congrArg (runRecordsCont rec) heq

theorem runRecords_step (r : Reader) :
    runRecords r =
      match nextRecord r with
      | .error e => .error e
      | .ok none => .ok ([], r)
      | .ok (some (rec, r')) => runRecordsCont rec (runRecords r') := by
  rw [runRecords, runRecordsF_succ]
  cases hnr : nextRecord r with
  | error e => rfl
  | ok o =>
    cases o with
    | none => rfl
    | some p =>
      obtain ⟨rec, r'⟩ := p
      rcases nextRecord_some_elim r rec r' hnr with ⟨l, t, toks, hgl, _, _, hr'⟩
      have hlt : r'.rest.length < r.rest.length := by
        have hlt2 := (getLine_some_facts r.rest l t hgl).1
        rw [hr']
        exact hlt2
      have heq : runRecordsF r.rest.length r' = runRecords r' := by
        rw [runRecords]
        exact runRecordsF_congr r'.rest.length r' _ _ (le_refl _) (by omega) (by omega)
      exact congrArg (runRecordsCont rec) heq

theorem runRecords_facts : ∀ (n : Nat) (r : Reader) (recs : List Rec) (r' : Reader),
    r.rest.length ≤ n → runRecords r = .ok (recs, r') →
    r'.file = r.file ∧ r'.needSeek = r.needSeek ∧
      recs.length = (r.rest.filter significant).length := by
  intro n
  induction n with
  | zero =>
    intro r recs r' hn h
    rw [runRecords_step] at h
    cases hnr : nextRecord r with
    | error e =>
      rw [hnr] at h
      have h' : (Except.error e : Except PyErr (List Rec × Reader)) = .ok (recs, r') := h
      simp at h'
    | ok o =>
      cases o with
      | none =>
        rw [hnr] at h
        have h' : (Except.ok (([] : List Rec), r) : Except PyErr (List Rec × Reader)) =
            .ok (recs, r') := h
        have h2 := Except.ok.inj h'
        have hrecs : ([] : List Rec) = recs := congrArg Prod.fst h2
        have hr : r = r' := congrArg Prod.snd h2
        subst hr
        refine ⟨rfl, rfl, ?_⟩
        have hrest : r.rest = [] := List.length_eq_zero.mp (by omega)
        rw [← hrecs, hrest]
        rfl
      | some p =>
        obtain ⟨rec, r₂⟩ := p
        rcases nextRecord_some_elim r rec r₂ hnr with ⟨l, t, toks, hgl, _, _, _⟩
        have hlt := (getLine_some_facts r.rest l t hgl).1
        omega
  | succ n ih =>
    intro r recs r' hn h
    rw [runRecords_step] at h
    cases hnr : nextRecord r with
    | error e =>
      rw [hnr] at h
      have h' : (Except.error e : Except PyErr (List Rec × Reader)) = .ok (recs, r') := h
      simp at h'
    | ok o =>
      cases o with
      | none =>
        rw [hnr] at h
        have h' : (Except.ok (([] : List Rec), r) : Except PyErr (List Rec × Reader)) =
            .ok (recs, r') := h
        have h2 := Except.ok.inj h'
        have hrecs : ([] : List Rec) = recs := congrArg Prod.fst h2
        have hr : r = r' := congrArg Prod.snd h2
        subst hr
        refine ⟨rfl, rfl, ?_⟩
        have hgl : getLine r.rest = none := by
          cases hgl2 : getLine r.rest with
          | none => rfl
          | some p =>
            obtain ⟨l, t⟩ := p
            cases hsl : split_line l with
            | none =>
              have hs := split_line_isSome l
              rw [hsl] at hs
              simp at hs
            | some toks =>
              rw [nextRecord_eq_of r l t toks hgl2 hsl] at hnr
              simp at hnr
        have hfil : r.rest.filter significant = [] := by
          rw [List.filter_eq_nil_iff]
          intro a ha hsig
          exact getLine_ne_none_of_sig r.rest a ha hsig hgl
        rw [← hrecs, hfil]
        rfl
      | some p =>
        obtain ⟨rec, r₂⟩ := p
        rw [hnr] at h
        have h' : runRecordsCont rec (runRecords r₂) = .ok (recs, r') := h
        cases hrr : runRecords r₂ with
        | error e =>
          rw [hrr, runRecordsCont] at h'
          simp at h'
        | ok q =>
          obtain ⟨recs₂, r₂'⟩ := q
          rw [hrr, runRecordsCont] at h'
          have h2 := Except.ok.inj h'
          have hrecs : rec :: recs₂ = recs := congrArg Prod.fst h2
          have hr : r₂' = r' := congrArg Prod.snd h2
          subst hr
          rcases nextRecord_some_elim r rec r₂ hnr with ⟨l, t, toks, hgl, hsl, hrec, hr₂⟩
          have hfacts := getLine_some_facts r.rest l t hgl
          have hrest₂ : r₂.rest = t := by rw [hr₂]
          have hfile₂ : r₂.file = r.file := by rw [hr₂]
          have hns₂ : r₂.needSeek = r.needSeek := by rw [hr₂]
          have hlen₂ : r₂.rest.length ≤ n := by
            have hlt := hfacts.1
            rw [hrest₂]
            omega
          rcases ih r₂ recs₂ r₂' hlen₂ hrr with ⟨hf, hn2, hcount⟩
          refine ⟨by rw [hf, hfile₂], by rw [hn2, hns₂], ?_⟩
          have hcnt := hfacts.2
          rw [← hrecs]
          simp only [List.length_cons]
          rw [hcount, hrest₂]
          omega

/-! ### Header and pass-start lemmas -/

theorem read_header_elim (r r' : Reader) (h : read_header r = .ok r') :
    ∃ l t toks, getLine r.rest = some (l, t) ∧ split_line l = some toks ∧
      toks.length = toks.dedup.length ∧ r' = { r with rest := t, columnnames := toks } := by
  rw [read_header] at h
  cases hgl : getLine r.rest with
  | none => rw [hgl, read_headerLine] at h; simp at h
  | some p =>
    obtain ⟨l, t⟩ := p
    rw [hgl, read_headerLine] at h
    cases hsl : split_line l with
    | none => rw [hsl, read_headerTok] at h; simp at h
    | some toks =>
      rw [hsl, read_headerTok] at h
      by_cases hdup : toks.length ≠ toks.dedup.length
      · rw [if_pos hdup] at h; simp at h
      · rw [if_neg hdup] at h
        exact ⟨l, t, toks, rfl, hsl, by omega, (Except.ok.inj h).symm⟩

theorem read_header_intro (r : Reader) (l : List Char) (t toks : List (List Char))
    (hgl : getLine r.rest = some (l, t)) (hsl : split_line l = some toks)
    (hnd : toks.length = toks.dedup.length) :
    read_header r = .ok { r with rest := t, columnnames := toks } := by
  rw [read_header, hgl, read_headerLine, hsl, read_headerTok, if_neg (by omega)]

theorem read_header_dup (r : Reader) (l : List Char) (t toks : List (List Char))
    (hgl : getLine r.rest = some (l, t)) (hsl : split_line l = some toks)
    (hnd : toks.length ≠ toks.dedup.length) :
    read_header r = .error .valueError := by
  rw [read_header, hgl, read_headerLine, hsl, read_headerTok, if_pos hnd]

theorem read_header_stop (r : Reader) (hgl : getLine r.rest = none) :
    read_header r = .error .stopIteration := by
  rw [read_header, hgl, read_headerLine]

theorem read_header_ne_ioError (r : Reader) : read_header r ≠ .error .ioError := by
  rw [read_header]
  cases hgl : getLine r.rest with
  | none => rw [read_headerLine]; simp
  | some p =>
    obtain ⟨l, t⟩ := p
    rw [read_headerLine]
    cases hsl : split_line l with
    | none =>
      have hs := split_line_isSome l
      rw [hsl] at hs
      simp at hs
    | some toks =>
      rw [read_headerTok]
      by_cases hdup : toks.length ≠ toks.dedup.length
      · rw [if_pos hdup]; simp
      · rw [if_neg hdup]; simp

theorem read_header_cols_irrel (src : Source) (ls : List (List Char)) (ns : Bool)
    (c₁ c₂ : List (List Char)) :
    read_header ⟨src, ls, ns, c₁⟩ = read_header ⟨src, ls, ns, c₂⟩ := by
  rw [read_header, read_header]
  show read_headerLine ⟨src, ls, ns, c₁⟩ (getLine ls) =
    read_headerLine ⟨src, ls, ns, c₂⟩ (getLine ls)
  cases getLine ls with
  | none => rfl
  | some p =>
    obtain ⟨l, t⟩ := p
    rw [read_headerLine, read_headerLine]
    cases split_line l with
    | none => rfl
    | some toks =>
      rw [read_headerTok, read_headerTok]

theorem iterStart_fresh (src : Source) :
    iterStart (mkReader src) = read_header ⟨src, src.lines, true, []⟩ := rfl

theorem iterStart_reseek (r : Reader) (hn : r.needSeek = true)
    (hs : r.file.seekable = true) :
    iterStart r = read_header ⟨r.file, r.file.lines, true, r.columnnames⟩ := by
  rw [iterStart, if_pos hn, if_pos hs, hn]

theorem iterStart_fail (r : Reader) (hn : r.needSeek = true)
    (hs : r.file.seekable = false) :
    iterStart r = .error .ioError := by
  rw [iterStart, if_pos hn, if_neg (by rw [hs]; simp)]

theorem iterStart_first_preserves (r r' : Reader) (hn : r.needSeek = false)
    (h : iterStart r = .ok r') : r'.needSeek = true ∧ r'.file = r.file := by
  rw [iterStart, if_neg (by rw [hn]; simp)] at h
  rcases read_header_elim _ _ h with ⟨l, t, toks, _, _, _, hr'⟩
  rw [hr']
  exact ⟨rfl, rfl⟩

theorem fullPass_elim (r : Reader) (recs : List Rec) (r' : Reader)
    (h : fullPass r = .ok (recs, r')) :
    ∃ h₀, iterStart r = .ok h₀ ∧ runRecords h₀ = .ok (recs, r') := by
  rw [fullPass] at h
  cases hit : iterStart r with
  | error e =>
    rw [hit] at h
    have h' : (Except.error e : Except PyErr (List Rec × Reader)) = .ok (recs, r') := h
    simp at h'
  | ok h₀ =>
    rw [hit] at h
    exact ⟨h₀, rfl, h⟩

theorem fullPass_intro (r : Reader) (h₀ : Reader) (h : iterStart r = .ok h₀) :
    fullPass r = runRecords h₀ := by
  rw [fullPass, h]

theorem fullPass_of_iter_error (r : Reader) (e : PyErr) (h : iterStart r = .error e) :
    fullPass r = .error e := by
  rw [fullPass, h]

/-! ### Zip and dedup utilities -/

theorem zip_take_len {α β : Type} : ∀ (l₁ : List α) (l₂ : List β),
    l₁.zip l₂ = (l₁.take l₂.length).zip l₂ := by
  intro l₁
  induction l₁ with
  | nil => intro l₂; simp
  | cons a l₁ ih =>
    intro l₂
    cases l₂ with
    | nil => simp
    | cons b l₂ =>
      simp only [List.zip_cons_cons, List.length_cons, List.take_succ_cons]
      rw [← ih l₂]

theorem length_eq_dedup_iff (toks : List (List Char)) :
    toks.length = toks.dedup.length ↔ toks.Nodup := by
  constructor
  · intro h
    have hsub := List.dedup_sublist toks
    have heq := hsub.eq_of_length h.symm
    rw [← heq]
    exact List.nodup_dedup toks
  · intro h
    rw [List.dedup_eq_self.mpr h]

/-! ### Claims -/

/-- C1, counterexample.  The claim says a line containing a token that starts
with a double quote but has no closing quote is a fatal parse error that
aborts the record read, with no record returned for that line.  The code
disagrees: on the line `abc "def` the regex simply never matches the
malformed field, `split_line` returns `['abc']` without raising, and a
record IS returned for the line. -/
theorem c1_counterexample :
    split_line "abc \"def".data = some ["abc".data] ∧
    (fullPass (mkReader ⟨["col1 col2".data, "abc \"def".data], true⟩)).map Prod.fst =
      .ok [[("col1".data, "abc".data)]] := by
  constructor
  · decide
  · decide

/-- C1, amended.  Tokenizing a line with a malformed (unterminated) quoted
field is NOT a fatal parse error: `split_line` always returns a token list
(the modelled `unquote` assertion can never fire), the unterminated quoted
field itself yields no token, and a record is still produced from the
line's surviving tokens. -/
theorem c1_amended :
    (∀ l : List Char, (split_line l).isSome) ∧
    split_line "abc \"def".data = some ["abc".data] ∧
    (fullPass (mkReader ⟨["col1 col2".data, "abc \"def".data], true⟩)).map Prod.fst =
      .ok [[("col1".data, "abc".data)]] := by
  refine ⟨split_line_isSome, by decide, by decide⟩

/-- C2.  The header-extension loop of `__next__` appends, for each overflow
position, the synthetic name `extra` + the smallest non-negative integer
whose name is not already in the column list (hence never colliding with an
existing name): the loop `extendCols` coincides with the specification-side
`specExtend`, which appends `extraName (leastFresh cols)` per overflow
column.  In particular the header `col1 extra1 col3` with rows
`d1 d2 d3` / `d1 d2 d3 d4 d5 d6` / `d1 d2 d3 d4` yields exactly the three
records of the claim. -/
theorem c2_synthetic_names :
    (∀ (numToks : Nat) (cols : List (List Char)),
      extendCols numToks cols = specExtend numToks cols) ∧
    (fullPass (mkReader ⟨["col1 extra1 col3".data, "d1 d2 d3".data,
        "d1 d2 d3 d4 d5 d6".data, "d1 d2 d3 d4".data], true⟩)).map Prod.fst =
      .ok [
        [("col1".data, "d1".data), ("extra1".data, "d2".data), ("col3".data, "d3".data)],
        [("col1".data, "d1".data), ("extra1".data, "d2".data), ("col3".data, "d3".data),
          ("extra0".data, "d4".data), ("extra2".data, "d5".data), ("extra3".data, "d6".data)],
        [("col1".data, "d1".data), ("extra1".data, "d2".data), ("col3".data, "d3".data),
          ("extra0".data, "d4".data)]] := by
  refine ⟨extendCols_eq_spec, by decide⟩

/-- C3.  For a data row whose line tokenizes to `toks` (`N = toks.length`),
`__next__` succeeds (shorter rows are not an error) and the returned record
is exactly the first `N` column names of the (possibly just-extended)
column list, in order, zipped with the row's token values: its keys are
`r'.columnnames.take N` and its values are `toks`; trailing columns are
simply absent. -/
theorem c3_record_keys (r : Reader) (l : List Char) (t toks : List (List Char))
    (hgl : getLine r.rest = some (l, t)) (hsl : split_line l = some toks) :
    ∃ rec r', nextRecord r = .ok (some (rec, r')) ∧
      rec = (r'.columnnames.take toks.length).zip toks ∧
      rec.map Prod.fst = r'.columnnames.take toks.length ∧
      rec.map Prod.snd = toks := by
  have hlen : toks.length ≤ (extendCols toks.length r.columnnames).length :=
    extendCols_length _ _
  refine ⟨(extendCols toks.length r.columnnames).zip toks,
    { r with rest := t, columnnames := extendCols toks.length r.columnnames },
    nextRecord_eq_of r l t toks hgl hsl, ?_, ?_, ?_⟩
  · show (extendCols toks.length r.columnnames).zip toks =
      ((extendCols toks.length r.columnnames).take toks.length).zip toks
    exact zip_take_len _ toks
  · show ((extendCols toks.length r.columnnames).zip toks).map Prod.fst =
      (extendCols toks.length r.columnnames).take toks.length
    rw [zip_take_len _ toks]
    apply List.map_fst_zip
    rw [List.length_take]
    exact min_le_left _ _
  · show ((extendCols toks.length r.columnnames).zip toks).map Prod.snd = toks
    exact List.map_snd_zip _ _ hlen

/-- C3, witness at a concrete mid-pass reader state. -/
theorem c3_record_keys_witness :
    (getLine (⟨⟨[], true⟩, ["d1 d2".data], true,
        ["col1".data, "col2".data]⟩ : Reader).rest = some ("d1 d2".data, [])) ∧
    split_line "d1 d2".data = some ["d1".data, "d2".data] ∧
    (∃ rec r', nextRecord (⟨⟨[], true⟩, ["d1 d2".data], true,
          ["col1".data, "col2".data]⟩ : Reader) = .ok (some (rec, r')) ∧
      rec = (r'.columnnames.take (["d1".data, "d2".data] : List (List Char)).length).zip
        ["d1".data, "d2".data] ∧
      rec.map Prod.fst =
        r'.columnnames.take (["d1".data, "d2".data] : List (List Char)).length ∧
      rec.map Prod.snd = ["d1".data, "d2".data]) := by
  exact ⟨by decide, by decide,
    c3_record_keys ⟨⟨[], true⟩, ["d1 d2".data], true, ["col1".data, "col2".data]⟩
      "d1 d2".data [] ["d1".data, "d2".data] (by decide) (by decide)⟩

/-- C4.  A header with two equal tokens makes the pass start fail with the
configuration error (`ValueError`) before any record is produced, and a
header with pairwise-distinct tokens makes the pass start succeed with
exactly those tokens as the initial column-name list. -/
theorem c4_header_dup (src : Source) (l : List Char) (t toks : List (List Char))
    (hgl : getLine src.lines = some (l, t)) (hsl : split_line l = some toks) :
    (¬toks.Nodup → fullPass (mkReader src) = .error .valueError ∧
      iterStart (mkReader src) = .error .valueError) ∧
    (toks.Nodup → ∃ r', iterStart (mkReader src) = .ok r' ∧ r'.columnnames = toks) := by
  constructor
  · intro hnd
    have hdup : toks.length ≠ toks.dedup.length := by
      intro heq
      exact hnd ((length_eq_dedup_iff toks).mp heq)
    have hrh : read_header ⟨src, src.lines, true, []⟩ = .error .valueError :=
      read_header_dup _ l t toks hgl hsl hdup
    have hit : iterStart (mkReader src) = .error .valueError := by
      rw [iterStart_fresh, hrh]
    exact ⟨fullPass_of_iter_error _ _ hit, hit⟩
  · intro hnd
    have heq : toks.length = toks.dedup.length := (length_eq_dedup_iff toks).mpr hnd
    have hrh := read_header_intro ⟨src, src.lines, true, []⟩ l t toks hgl hsl heq
    exact ⟨_, by rw [iterStart_fresh, hrh], rfl⟩

/-- C4, witness: a duplicated header aborts the pass with the configuration
error. -/
theorem c4_header_dup_witness :
    (getLine (⟨["col1 col1".data, "a b".data], true⟩ : Source).lines =
      some ("col1 col1".data, ["a b".data])) ∧
    split_line "col1 col1".data = some ["col1".data, "col1".data] ∧
    ¬(["col1".data, "col1".data] : List (List Char)).Nodup ∧
    fullPass (mkReader ⟨["col1 col1".data, "a b".data], true⟩) = .error .valueError := by
  refine ⟨by decide, by decide, by decide, ?_⟩
  exact ((c4_header_dup ⟨["col1 col1".data, "a b".data], true⟩ "col1 col1".data
    ["a b".data] ["col1".data, "col1".data] (by decide) (by decide)).1 (by decide)).1

/-- C5.  Over a non-rewindable source: the first pass start never fails with
the rewind error (no rewind is attempted); any pass start on a reader that
has already read the source (`need_seek` set) fails with the distinguishable
I/O error rather than returning data; and a completed first pass leaves
`need_seek` set, so every second or later pass attempt fails that way. -/
theorem c5_nonrewindable (src : Source) (hs : src.seekable = false) :
    (iterStart (mkReader src) ≠ .error .ioError) ∧
    (∀ r : Reader, r.needSeek = true → r.file = src →
      iterStart r = .error .ioError ∧ fullPass r = .error .ioError) ∧
    (∀ (recs : List Rec) (r₁ : Reader), fullPass (mkReader src) = .ok (recs, r₁) →
      r₁.needSeek = true ∧ r₁.file = src) := by
  refine ⟨?_, ?_, ?_⟩
  · rw [iterStart_fresh]
    exact read_header_ne_ioError _
  · intro r hn hf
    have hit := iterStart_fail r hn (by rw [hf]; exact hs)
    exact ⟨hit, fullPass_of_iter_error r _ hit⟩
  · intro recs r₁ h
    rcases fullPass_elim _ _ _ h with ⟨h₀, hit, hrun⟩
    rcases iterStart_first_preserves (mkReader src) h₀ rfl hit with ⟨hn₀, hf₀⟩
    rcases runRecords_facts h₀.rest.length h₀ recs r₁ (le_refl _) hrun with ⟨hf, hn, _⟩
    refine ⟨by rw [hn, hn₀], ?_⟩
    rw [hf, hf₀]
    rfl

/-- C5, witness: over a concrete non-seekable source the first pass yields the
expected record and the second pass fails with the I/O error. -/
theorem c5_nonrewindable_witness :
    ((⟨["col1 col2".data, "d1 d2".data], false⟩ : Source).seekable = false) ∧
    fullPass (mkReader ⟨["col1 col2".data, "d1 d2".data], false⟩) =
      .ok ([[("col1".data, "d1".data), ("col2".data, "d2".data)]],
        ⟨⟨["col1 col2".data, "d1 d2".data], false⟩, [], true,
          ["col1".data, "col2".data]⟩) ∧
    iterStart (⟨⟨["col1 col2".data, "d1 d2".data], false⟩, [], true,
      ["col1".data, "col2".data]⟩ : Reader) = .error .ioError ∧
    fullPass (⟨⟨["col1 col2".data, "d1 d2".data], false⟩, [], true,
      ["col1".data, "col2".data]⟩ : Reader) = .error .ioError ∧
    iterStart (mkReader ⟨["col1 col2".data, "d1 d2".data], false⟩) ≠ .error .ioError := by
  have h := c5_nonrewindable ⟨["col1 col2".data, "d1 d2".data], false⟩ rfl
  exact ⟨rfl, by decide, (h.2.1 _ rfl rfl).1, (h.2.1 _ rfl rfl).2, h.1⟩

/-- C6.  Over a rewindable source, a second complete pass after a finished
first pass reproduces exactly the first pass's records (and final state),
and the column list of the second pass is rebuilt from scratch by re-reading
the header: right after the second pass start it equals the column list
right after a fresh pass start, so synthetic names added during the first
pass do not carry over. -/
theorem c6_reiteration (src : Source) (recs : List Rec) (r₁ : Reader)
    (hs : src.seekable = true) (h : fullPass (mkReader src) = .ok (recs, r₁)) :
    fullPass r₁ = .ok (recs, r₁) ∧
    (∀ r', iterStart r₁ = .ok r' → ∃ r₀, iterStart (mkReader src) = .ok r₀ ∧
      r'.columnnames = r₀.columnnames) := by
  rcases fullPass_elim _ _ _ h with ⟨h₀, hit, hrun⟩
  rcases iterStart_first_preserves (mkReader src) h₀ rfl hit with ⟨hn₀, hf₀⟩
  rcases runRecords_facts h₀.rest.length h₀ recs r₁ (le_refl _) hrun with ⟨hf₁, hn₁, _⟩
  have hn : r₁.needSeek = true := by rw [hn₁, hn₀]
  have hfil : r₁.file = src := by rw [hf₁, hf₀]; rfl
  have hit2 : iterStart r₁ = iterStart (mkReader src) := by
    rw [iterStart_reseek r₁ hn (by rw [hfil]; exact hs), iterStart_fresh, hfil]
    exact read_header_cols_irrel src src.lines true r₁.columnnames []
  constructor
  · rw [fullPass, hit2, hit]
    exact hrun
  · intro r' hr'
    exact ⟨r', by rw [← hit2, hr'], rfl⟩

/-- C6, witness: a concrete seekable source re-iterates to identical records
and an identical final state. -/
theorem c6_reiteration_witness :
    ((⟨["col1 col2".data, "d1 d2".data], true⟩ : Source).seekable = true) ∧
    fullPass (mkReader ⟨["col1 col2".data, "d1 d2".data], true⟩) =
      .ok ([[("col1".data, "d1".data), ("col2".data, "d2".data)]],
        ⟨⟨["col1 col2".data, "d1 d2".data], true⟩, [], true,
          ["col1".data, "col2".data]⟩) ∧
    fullPass (⟨⟨["col1 col2".data, "d1 d2".data], true⟩, [], true,
        ["col1".data, "col2".data]⟩ : Reader) =
      .ok ([[("col1".data, "d1".data), ("col2".data, "d2".data)]],
        ⟨⟨["col1 col2".data, "d1 d2".data], true⟩, [], true,
          ["col1".data, "col2".data]⟩) := by
  have h := c6_reiteration ⟨["col1 col2".data, "d1 d2".data], true⟩
    [[("col1".data, "d1".data), ("col2".data, "d2".data)]]
    ⟨⟨["col1 col2".data, "d1 d2".data], true⟩, [], true, ["col1".data, "col2".data]⟩
    rfl (by decide)
  exact ⟨rfl, by decide, h.1⟩

/-- C7.  `unquote` returns a token unchanged when it does not start with a
double quote; a token of the shape `"` mid `"` is returned with the
surrounding quotes stripped and every doubled double quote collapsed
(`replaceDD`); the token `""` yields the empty-string value; and
`"""special"" data"` yields `"special" data`. -/
theorem c7_unquote :
    (∀ tok : List Char, tok ≠ [] → tok.head? ≠ some '"' → unquote tok = some tok) ∧
    (∀ mid : List Char, unquote ('"' :: (mid ++ ['"'])) = some (replaceDD mid)) ∧
    unquote "\"\"".data = some [] ∧
    unquote "\"\"\"special\"\" data\"".data = some "\"special\" data".data := by
  refine ⟨?_, unquote_quoted, by decide, by decide⟩
  intro tok hne hq
  cases tok with
  | nil => exact absurd rfl hne
  | cons c rest =>
    rw [unquote, if_neg (fun hc => hq (by rw [List.head?_cons, hc]))]

/-- C7, witness: a bare token is returned unchanged. -/
theorem c7_unquote_witness :
    ("abc".data ≠ ([] : List Char)) ∧ (("abc".data : List Char).head? ≠ some '"') ∧
    unquote "abc".data = some "abc".data :=
  ⟨by decide, by decide, c7_unquote.1 "abc".data (by decide) (by decide)⟩

/-- C8.  For every source on which a pass completes, the number of records
produced equals the number of significant lines after the header: blank
lines (empty after trimming) and comment lines (first non-whitespace
character `#`) are invisible to row counting. -/
theorem c8_record_count (src : Source) (recs : List Rec) (r' : Reader)
    (h : fullPass (mkReader src) = .ok (recs, r')) :
    recs.length + 1 = (src.lines.filter significant).length := by
  rcases fullPass_elim _ _ _ h with ⟨h₀, hit, hrun⟩
  rw [iterStart_fresh] at hit
  rcases read_header_elim _ _ hit with ⟨l, t, toks, hgl, hsl, hnd, hr₀⟩
  have hcnt1 := (getLine_some_facts src.lines l t hgl).2
  rcases runRecords_facts h₀.rest.length h₀ recs r' (le_refl _) hrun with ⟨_, _, hcnt2⟩
  have hrest : h₀.rest = t := by rw [hr₀]
  rw [hcnt2, hrest]
  omega

/-- C8, witness: a source with comments and blank lines interleaved yields
exactly one record per significant data line. -/
theorem c8_record_count_witness :
    fullPass (mkReader ⟨["# c".data, "col1 col2".data, "".data, "d1 d2".data,
        "# x".data, "d3".data], true⟩) =
      .ok ([[("col1".data, "d1".data), ("col2".data, "d2".data)],
          [("col1".data, "d3".data)]],
        ⟨⟨["# c".data, "col1 col2".data, "".data, "d1 d2".data, "# x".data,
            "d3".data], true⟩, [], true, ["col1".data, "col2".data]⟩) ∧
    ([[("col1".data, "d1".data), ("col2".data, "d2".data)],
        [("col1".data, "d3".data)]] : List Rec).length + 1 =
      ((⟨["# c".data, "col1 col2".data, "".data, "d1 d2".data, "# x".data,
          "d3".data], true⟩ : Source).lines.filter significant).length := by
  refine ⟨by decide, ?_⟩
  exact c8_record_count
    ⟨["# c".data, "col1 col2".data, "".data, "d1 d2".data, "# x".data, "d3".data], true⟩
    [[("col1".data, "d1".data), ("col2".data, "d2".data)], [("col1".data, "d3".data)]]
    ⟨⟨["# c".data, "col1 col2".data, "".data, "d1 d2".data, "# x".data, "d3".data], true⟩,
      [], true, ["col1".data, "col2".data]⟩
    (by decide)

/-- C9.  Every token the tokenizer produces and hands to `unquote` that starts
with a double quote also ends with one (and has length at least 2, so the
first and last characters are distinct positions); consequently `unquote`'s
defensive assertion and its indexing can never fail on tokenizer-produced
input, i.e. `split_line` always returns a token list. -/
theorem c9_tokenizer_safety :
    (∀ s tok rest : List Char, findMatch s = some (tok, rest) → tok ≠ [] →
      tok.head? = some '"' → tok.getLast? = some '"' ∧ 2 ≤ tok.length) ∧
    (∀ l : List Char, (split_line l).isSome) := by
  constructor
  · intro s tok rest hfm hne hq
    rcases (findMatch_some s tok rest hfm).1 with hbare | ⟨inner, rfl⟩
    · exfalso
      cases tok with
      | nil => exact hne rfl
      | cons c t =>
        have hb := hbare c (List.mem_cons_self c t)
        have hc : c = '"' := by
          rw [List.head?_cons] at hq
          exact Option.some.inj hq
        simp [bareChar, hc] at hb
    · constructor
      · rw [show ('"' :: (inner ++ ['"']) : List Char) = ('"' :: inner) ++ ['"'] by simp]
        exact List.getLast?_concat _
      · simp only [List.length_cons, List.length_append, List.length_nil]
        omega
  · exact split_line_isSome

/-- C9, witness: a concrete quoted token produced by the tokenizer starts and
ends with a quote. -/
theorem c9_tokenizer_safety_witness :
    findMatch " \"a b\" ".data = some ("\"a b\"".data, " ".data) ∧
    ("\"a b\"".data ≠ ([] : List Char)) ∧
    (("\"a b\"".data : List Char).head? = some '"') ∧
    (("\"a b\"".data : List Char).getLast? = some '"' ∧
      2 ≤ ("\"a b\"".data : List Char).length) := by
  exact ⟨by decide, by decide, by decide,
    c9_tokenizer_safety.1 " \"a b\" ".data "\"a b\"".data " ".data
      (by decide) (by decide) (by decide)⟩

/-- C10.  A source with no significant line at all (only blank and comment
lines, or nothing) makes the pass-start operation itself fail with
`StopIteration` while reading the header, rather than returning an iterator
that yields zero records. -/
theorem c10_no_significant (src : Source)
    (h : ∀ l ∈ src.lines, significant l = false) :
    iterStart (mkReader src) = .error .stopIteration ∧
    fullPass (mkReader src) = .error .stopIteration := by
  have hgl : getLine src.lines = none := getLine_none_of_all src.lines h
  have hrh : read_header ⟨src, src.lines, true, []⟩ = .error .stopIteration :=
    read_header_stop _ hgl
  have hit : iterStart (mkReader src) = .error .stopIteration := by
    rw [iterStart_fresh, hrh]
  exact ⟨hit, fullPass_of_iter_error _ _ hit⟩

/-- C10, witness: a comments-and-blanks-only source raises `StopIteration`
from the pass start. -/
theorem c10_no_significant_witness :
    (∀ l ∈ (⟨["# only comments".data, "   ".data], true⟩ : Source).lines,
      significant l = false) ∧
    iterStart (mkReader ⟨["# only comments".data, "   ".data], true⟩) =
      .error .stopIteration ∧
    fullPass (mkReader ⟨["# only comments".data, "   ".data], true⟩) =
      .error .stopIteration := by
  have h := c10_no_significant ⟨["# only comments".data, "   ".data], true⟩ (by decide)
  exact ⟨by decide, h.1, h.2⟩

end Wsv
